import Mathlib

/-!
Verification development for the epub2txt repository.

The repository contains two generations of the same pipeline:
an older one (main.rs, src/process/chapter.rs, src/process/opf.rs) built on
kuchiki (DOM) and xml-rs (event stream), and a newer one (src/process.rs,
src/process/metadata.rs, src/utils.rs) built on quick-xml and serde.
Each cited function is embedded below, working over `Str := List Char`
(Rust `String` / `&str`); external library behaviour (zip entry reading,
the HTML parser producing a DOM, the XML tokenizers producing event
streams) is taken as input data to the embedded functions, exactly as the
Rust functions consume it.
-/

set_option maxRecDepth 20000

abbrev Str := List Char

/-- Rust `str::starts_with` / anchored literal match: p is a prefix of l. -/
def leadsWith : Str → Str → Bool
  | [], _ => true
  | _ :: _, [] => false
  | a :: as_, b :: bs => if a = b then leadsWith as_ bs else false

/-- Rust `str::contains` with a literal pattern: p occurs contiguously in l. -/
def withinOf (p : Str) : Str → Bool
  | [] => leadsWith p []
  | c :: rest => if leadsWith p (c :: rest) then true else withinOf p rest

/-- Rust `str::trim_start` (whitespace restricted to the ASCII whitespace
occurring in the data of this repository). -/
def trimStart (l : Str) : Str := l.dropWhile Char.isWhitespace

/-- Rust `str::trim`. -/
def trim (l : Str) : Str := ((trimStart l).reverse.dropWhile Char.isWhitespace).reverse

/-- Suffix relation: r is a contiguous tail of l. -/
def tailOf (r l : Str) : Prop := ∃ p, p ++ r = l

/-! ## Path resolution

Two resolvers exist in the repository.

`normalize_zip_path` (src/utils.rs) works directly on strings: it seeds the
result with the directory part of the OPF path (everything before the last
slash), then walks the slash-separated components of the relative path.
A `..` truncates the result at its last slash (when the result has no slash
at all, nothing happens); `.` and empty components are skipped; anything
else is appended with a separating slash.  The `println!` side effect of
the Rust function is irrelevant to its value and is not modelled.

`normalize_path` / `href2path` (src/process/chapter.rs) joins the OPF
directory with the href, then folds the components of the joined path:
`.` is skipped, `..` pops the last stacked component unless the stack is
empty or already ends in a `..` marker (in which case `..` is pushed), and
other components are pushed.  `std::path::Path` componentisation is
modelled by splitting on `/` and discarding empty components; the interior
`.` components that the Rust parser would already elide are skipped by the
fold itself, so the result agrees.  Host paths are assumed to use `/`
(the `replace('\\', "/")` step is the identity there).
-/

/-- Index of the last `/` in l (Rust `str::rfind('/')`). -/
def lastSlashIdx (l : Str) : Option Nat :=
  match l.reverse.findIdx? (fun c => c = '/') with
  | some i => some (l.length - 1 - i)
  | none => none

/-- Rust `str::split('/')`: always yields one piece more than separators. -/
def splitSlash : Str → List Str
  | [] => [[]]
  | c :: rest =>
    let r := splitSlash rest
    if c = '/' then [] :: r
    else
      match r with
      | [] => [[c]]
      | h :: t => (c :: h) :: t

/-- One component step of normalize_zip_path (src/utils.rs, the match arm). -/
def nzpStep (res : Str) (comp : Str) : Str :=
  if comp = ".".toList ∨ comp = [] then res
  else if comp = "..".toList then
    match lastSlashIdx res with
    | some p => res.take p
    | none => res
  else if res = [] then comp
  else res ++ '/' :: comp

/-- normalize_zip_path (src/utils.rs). -/
def normalizeZipPath (opfPath : Str) (rel : Str) : Str :=
  let base : Str :=
    match lastSlashIdx opfPath with
    | some p => opfPath.take p
    | none => []
  (splitSlash rel).foldl nzpStep base

/-- One component step of normalize_path (src/process/chapter.rs 131-146). -/
def normStep (st : List Str) (comp : Str) : List Str :=
  if comp = ".".toList then st
  else if comp = "..".toList then
    match st.getLast? with
    | some c => if c = "..".toList then st ++ ["..".toList] else st.dropLast
    | none => st ++ ["..".toList]
  else st ++ [comp]

/-- The component fold of normalize_path. -/
def normalizeComponents (comps : List Str) : List Str := comps.foldl normStep []

/-- Componentisation of a relative slash path (model of Path::components). -/
def pathComponents (p : Str) : List Str := (splitSlash p).filter (fun c => c ≠ [])

/-- Join a component stack back into a slash path. -/
def joinSlash : List Str → Str
  | [] => []
  | [x] => x
  | x :: rest => x ++ '/' :: joinSlash rest

/-- normalize_path (src/process/chapter.rs 128-156) on a slash path string. -/
def normalizePath (p : Str) : Str :=
  let st := normalizeComponents (pathComponents p)
  if st = [] then ".".toList else joinSlash st

/-- Path::parent with unwrap_or("") (src/process/chapter.rs 108-110). -/
def parentDir (p : Str) : Str :=
  match lastSlashIdx p with
  | some i => p.take i
  | none => []

/-- PathBuf::join for a relative right operand. -/
def joinPath (dir rel : Str) : Str := if dir = [] then rel else dir ++ '/' :: rel

/-- href2path (src/process/chapter.rs 106-125) for a single href. -/
def hrefToPath (opfPath href : Str) : Str := normalizePath (joinPath (parentDir opfPath) href)

/-! ## Manifest map and spine resolution

The quick-xml pipeline (src/process/metadata.rs) turns the manifest into an
AHashMap id→href (`Manifest::into_map`) and resolves the spine against it
with `AHashMap::remove`, consuming each entry (`Spine::into_hrefs`).  The
xml-rs pipeline (src/process/opf.rs `parse_opf`) collects an unfiltered
id→href HashMap and resolves the spine with a non-consuming `get`, erring on
the first id with no mapping.  The hash maps are modelled as association
lists with unique keys; `insertKV` is hash-map insert (replace-or-append),
matching `collect::<HashMap<_,_>>` where a later pair overwrites an earlier
one with the same key.
-/

abbrev Mp := List (Str × Str)

/-- Hash-map lookup on the association-list model. -/
def lookupKV : Mp → Str → Option Str
  | [], _ => none
  | (k', v) :: rest, k => if k' = k then some v else lookupKV rest k

/-- Hash-map remove (drops the first entry with the key). -/
def removeKV : Mp → Str → Mp
  | [], _ => []
  | (k', v) :: rest, k => if k' = k then rest else (k', v) :: removeKV rest k

/-- Hash-map insert: replaces an existing entry for the key, else appends. -/
def insertKV : Mp → Str → Str → Mp
  | [], k, v => [(k, v)]
  | (k', v') :: rest, k, v => if k' = k then (k, v) :: rest else (k', v') :: insertKV rest k v

def keysOf (m : Mp) : List Str := m.map Prod.fst

/-- A manifest item element attribute triple (src/process/metadata.rs 123-131). -/
structure MItem where
  id : Str
  href : Str
  mediaType : Str

/-- The filter of Manifest::into_map (src/process/metadata.rs 99-105):
keep only XHTML items whose id does not contain "cover". -/
def manifestKeep (it : MItem) : Bool :=
  if withinOf "cover".toList it.id then false
  else if it.mediaType = "application/xhtml+xml".toList then true
  else false

/-- Manifest::into_map (src/process/metadata.rs 99-105). -/
def intoMap (items : List MItem) : Mp :=
  (items.filter manifestKeep).foldl (fun m it => insertKV m it.id it.href) []

/-- Spine::into_hrefs (src/process/metadata.rs 115-120): resolve each idref
with a consuming remove, silently dropping idrefs with no mapping. -/
def intoHrefs : List Str → Mp → List Str
  | [], _ => []
  | id :: rest, m =>
    match lookupKV m id with
    | some h => h :: intoHrefs rest (removeKV m id)
    | none => intoHrefs rest m

/-- The spine-resolution loop of parse_opf (src/process/opf.rs 89-96):
non-consuming `get`, hard error on a missing id. -/
def parseOpfResolve : List Str → Mp → Except Str (List Str)
  | [], _ => .ok []
  | id :: rest, m =>
    match lookupKV m id with
    | some h => (parseOpfResolve rest m).map (fun l => h :: l)
    | none => .error ("Missing href for chapter id: ".toList ++ id)

/-- HashMap::from_iter / collect over (id, href) pairs (src/process/opf.rs 83). -/
def collectMp (ps : List (Str × Str)) : Mp :=
  ps.foldl (fun m p => insertKV m p.1 p.2) []

/-! ## xml-rs event-stream parsers (src/process/opf.rs)

The xml-rs `EventReader` yields a stream of `Result<XmlEvent>` values; the
parsers of this repository fold over that stream, aborting on the first
`Err`.  Element and attribute names are the `local_name` strings.  Events
other than StartElement/EndElement/Characters fall into the catch-all arms
and are represented by `otherEv`.
-/

inductive XmlEvent where
  | startEl (name : Str) (attrs : List (Str × Str))
  | endEl (name : Str)
  | chars (s : Str)
  | otherEv

abbrev XmlRes := Except Str XmlEvent

/-- Attribute search by local name (get_id_and_href / get_idref helpers use
Iterator::find, i.e. first match). The attribute list is an Mp. -/
def findAttr (attrs : List (Str × Str)) (k : Str) : Option Str := lookupKV attrs k

/-- parse_manifest (src/process/opf.rs 173-201): collects (id, href) for
every item inside a manifest element that has both attributes; no filtering
of any kind. -/
def parseManifestGo (inM : Bool) : List XmlRes → Except Str (List (Str × Str))
  | [] => .ok []
  | .error e :: _ => .error e
  | .ok ev :: rest =>
    match ev with
    | .startEl n attrs =>
      if n = "manifest".toList then parseManifestGo true rest
      else if inM then
        if n = "item".toList then
          match findAttr attrs "id".toList, findAttr attrs "href".toList with
          | some i, some h => (parseManifestGo inM rest).map (fun l => (i, h) :: l)
          | _, _ => parseManifestGo inM rest
        else parseManifestGo inM rest
      else parseManifestGo inM rest
    | .endEl n =>
      if n = "manifest".toList then parseManifestGo false rest else parseManifestGo inM rest
    | _ => parseManifestGo inM rest

def parseManifest (evs : List XmlRes) : Except Str (List (Str × Str)) :=
  parseManifestGo false evs

/-- parse_spine (src/process/opf.rs 204-234): collects idref attributes of
itemref elements inside a spine element, dropping any idref containing
"nav" or "cover". -/
def parseSpineGo (inS : Bool) : List XmlRes → Except Str (List Str)
  | [] => .ok []
  | .error e :: _ => .error e
  | .ok ev :: rest =>
    match ev with
    | .startEl n attrs =>
      if n = "spine".toList then parseSpineGo true rest
      else if inS then
        if n = "itemref".toList then
          match findAttr attrs "idref".toList with
          | some idref =>
            if withinOf "nav".toList idref then parseSpineGo inS rest
            else if withinOf "cover".toList idref then parseSpineGo inS rest
            else (parseSpineGo inS rest).map (fun l => idref :: l)
          | none => parseSpineGo inS rest
        else parseSpineGo inS rest
      else parseSpineGo inS rest
    | .endEl n =>
      if n = "spine".toList then parseSpineGo false rest else parseSpineGo inS rest
    | _ => parseSpineGo inS rest

def parseSpine (evs : List XmlRes) : Except Str (List Str) := parseSpineGo false evs

/-- The Metadata record of src/process/opf.rs 14-33 (title defaults to the
empty string, the rest to none / empty list). -/
structure MetaR where
  title : Str
  author : Option Str
  language : Option Str
  description : Option Str
  subject : List Str
deriving DecidableEq

/-- Mutable parser state of parse_metadata (src/process/opf.rs 102-169):
the in-metadata flag, the current tag name, the accumulating text value,
the metadata being built, and the collected subjects. -/
structure MetaSt where
  inMeta : Bool
  tag : Str
  val : Str
  md : MetaR
  subjects : List Str

def metaRecognized (n : Str) : Bool :=
  if n = "title".toList then true
  else if n = "creator".toList then true
  else if n = "language".toList then true
  else if n = "description".toList then true
  else if n = "subject".toList then true
  else false

/-- One event step of parse_metadata. -/
def metaStep (st : MetaSt) (ev : XmlEvent) : MetaSt :=
  match ev with
  | .startEl n _ =>
    if n = "metadata".toList then { st with inMeta := true }
    else if st.inMeta then
      let st' := { st with tag := n }
      if metaRecognized n then { st' with val := [] } else st'
    else st
  | .chars t =>
    if st.inMeta then
      if metaRecognized st.tag then { st with val := st.val ++ t } else st
    else st
  | .endEl n =>
    if n = "metadata".toList then { st with inMeta := false }
    else if st.inMeta then
      if n = "title".toList then { st with md := { st.md with title := trim st.val }, val := [] }
      else if n = "creator".toList then
        { st with md := { st.md with author := some (trim st.val) }, val := [] }
      else if n = "language".toList then
        { st with md := { st.md with language := some (trim st.val) }, val := [] }
      else if n = "description".toList then
        { st with md := { st.md with description := some (trim st.val) }, val := [] }
      else if n = "subject".toList then
        { st with subjects := st.subjects ++ [trim st.val], val := [] }
      else st
    else st
  | .otherEv => st

def parseMetadataGo (st : MetaSt) : List XmlRes → Except Str MetaR
  | [] => .ok { st.md with subject := st.subjects }
  | .error e :: _ => .error e
  | .ok ev :: rest => parseMetadataGo (metaStep st ev) rest

def initMetaSt : MetaSt := ⟨false, [], [], ⟨[], none, none, none, []⟩, []⟩

/-- parse_metadata (src/process/opf.rs 102-169). -/
def parseMetadata (evs : List XmlRes) : Except Str MetaR := parseMetadataGo initMetaSt evs

/-- get_opf_path (src/process/opf.rs 262-297): runs the whole event stream,
tracking whether it is inside a rootfiles element; every rootfile element
seen inside one overwrites the stored full-path attribute value (clearing
it when the attribute is absent); at end of stream the stored value is
returned, else a not-found error; tokenizer errors abort immediately. -/
def getOpfPathGo (inR : Bool) (acc : Option Str) : List XmlRes → Except Str Str
  | [] =>
    match acc with
    | some p => .ok p
    | none => .error "No OPF path found in container.xml".toList
  | .error e :: _ => .error ("XML parsing error: ".toList ++ e)
  | .ok ev :: rest =>
    match ev with
    | .startEl n attrs =>
      if n = "rootfiles".toList then getOpfPathGo true acc rest
      else if n = "rootfile".toList then
        if inR then getOpfPathGo inR (findAttr attrs "full-path".toList) rest
        else getOpfPathGo inR acc rest
      else getOpfPathGo inR acc rest
    | .endEl n =>
      if n = "rootfiles".toList then getOpfPathGo false acc rest else getOpfPathGo inR acc rest
    | _ => getOpfPathGo inR acc rest

def getOpfPath (evs : List XmlRes) : Except Str Str := getOpfPathGo false none evs

/-- Strip attributes from a start element (to state that parse_metadata
never reads attributes). -/
def stripAttrsEv : XmlEvent → XmlEvent
  | .startEl n _ => .startEl n []
  | e => e

def stripAttrsRes : XmlRes → XmlRes
  | .ok e => .ok (stripAttrsEv e)
  | .error e => .error e

/-! ## quick-xml locator (src/process.rs 141-164, Epub::extract_opf_path)

quick-xml events are modelled with their own type; the loop returns the
first rootfile (Start or Empty) carrying a full-path attribute, with no
check of any enclosing rootfiles element; Eof yields the not-found error;
a read error aborts.  The reader always terminates a well-formed session
with Eof, so stream exhaustion is treated like Eof.
-/

inductive QEvent where
  | qStart (name : Str) (attrs : List (Str × Str))
  | qEmpty (name : Str) (attrs : List (Str × Str))
  | qEof
  | qOther

abbrev QRes := Except Str QEvent

def extractOpfPathGo : List QRes → Except Str Str
  | [] => .error "OPF path not found in container.xml".toList
  | .error e :: _ => .error ("Error reading XML: ".toList ++ e)
  | .ok ev :: rest =>
    match ev with
    | .qStart n attrs =>
      if n = "rootfile".toList then
        match findAttr attrs "full-path".toList with
        | some v => .ok v
        | none => extractOpfPathGo rest
      else extractOpfPathGo rest
    | .qEmpty n attrs =>
      if n = "rootfile".toList then
        match findAttr attrs "full-path".toList with
        | some v => .ok v
        | none => extractOpfPathGo rest
      else extractOpfPathGo rest
    | .qEof => .error "OPF path not found in container.xml".toList
    | .qOther => extractOpfPathGo rest

def extractOpfPath (evs : List QRes) : Except Str Str := extractOpfPathGo evs

/-! ## DOM model and chapter extraction (src/process/chapter.rs)

The kuchiki DOM produced by parse_html is modelled as a tree; a mutual
inductive keeps all traversals structurally recursive.  The kuchiki
`inclusive_descendants` is a pre-order walk including the start node;
`select(tag)` iterates the elements of that walk with the given local
name; `text_contents` concatenates all descendant text.  The html5ever
tree for a fragment always has the shape html(head(...), body(...)); the
concrete documents below are written in that parsed shape.
-/

mutual
inductive Node where
  | elem (name : Str) (children : NodeList)
  | txt (s : Str)
inductive NodeList where
  | nil
  | cons (hd : Node) (tl : NodeList)
end

def NodeList.ofL : List Node → NodeList
  | [] => .nil
  | n :: rest => .cons n (NodeList.ofL rest)

/-- Element-node builder from a String literal name. -/
def el (n : String) (cs : List Node) : Node := .elem n.toList (NodeList.ofL cs)

/-- Text-node builder. -/
def tx (s : String) : Node := .txt s.toList

/-- The text_tags array of extract_text_from_node (src/process/chapter.rs 172). -/
def textTags : List Str :=
  ["p".toList, "h1".toList, "h2".toList, "h3".toList,
   "h4".toList, "h5".toList, "h6".toList]

/-- The title_tags array of extract_title (src/process/chapter.rs 208). -/
def titleTags : List Str :=
  ["title".toList, "h1".toList, "h2".toList, "h3".toList,
   "h4".toList, "h5".toList, "h6".toList]

/-- is_parent_text_tag (src/process/chapter.rs 196-203), given the parent
element name (none when the node has no element parent). -/
def parentIsTextTag : Option Str → Bool
  | some n => if n ∈ textTags then true else false
  | none => false

mutual
/-- extract_text_from_node (src/process/chapter.rs 171-194): pre-order
walk; a text-tag element contributes a newline (before its subtree); a
text node contributes its content, raw when the parent element is a
text-tag, trimmed otherwise, and only when non-empty.  The final
`text.trim().to_string();` of the Rust function discards its result and
is therefore absent. -/
def extractTextFromNode (parent : Option Str) (acc : Str) : Node → Str
  | .txt s =>
    let content := if parentIsTextTag parent then s else trim s
    if content = [] then acc else acc ++ content
  | .elem n cs =>
    extractTextList n (if n ∈ textTags then acc ++ ['\n'] else acc) cs
def extractTextList (pname : Str) (acc : Str) : NodeList → Str
  | .nil => acc
  | .cons c t => extractTextList pname (extractTextFromNode (some pname) acc c) t
end

mutual
/-- First element with the given local name in pre-order (model of
kuchiki `select(name)` followed by `.next()`). -/
def selectFirstN (name : Str) : Node → Option Node
  | .txt _ => none
  | .elem n cs => if n = name then some (.elem n cs) else selectFirstL name cs
def selectFirstL (name : Str) : NodeList → Option Node
  | .nil => none
  | .cons h t =>
    match selectFirstN name h with
    | some r => some r
    | none => selectFirstL name t
end

mutual
/-- kuchiki text_contents: concatenation of all descendant text nodes. -/
def textContentsN : Node → Str
  | .txt s => s
  | .elem _ cs => textContentsL cs
def textContentsL : NodeList → Str
  | .nil => []
  | .cons h t => textContentsN h ++ textContentsL t
end

mutual
/-- Pre-order list of element nodes (used only to state what "the last
title-tag in the stream" denotes). -/
def elemsN : Node → List Node
  | .txt _ => []
  | .elem n cs => .elem n cs :: elemsL cs
def elemsL : NodeList → List Node
  | .nil => []
  | .cons h t => elemsN h ++ elemsL t
end

def nodeName : Node → Str
  | .elem n _ => n
  | .txt _ => []

/-- Model of html_escape::decode_html_entities restricted to the basic
named/numeric entities; on entity-free text it is the identity, which is
all the cited behaviour of the repository exercises. -/
def decodeHtml : Str → Str
  | [] => []
  | '&' :: 'a' :: 'm' :: 'p' :: ';' :: rest => '&' :: decodeHtml rest
  | '&' :: 'l' :: 't' :: ';' :: rest => '<' :: decodeHtml rest
  | '&' :: 'g' :: 't' :: ';' :: rest => '>' :: decodeHtml rest
  | '&' :: 'q' :: 'u' :: 'o' :: 't' :: ';' :: rest => '"' :: decodeHtml rest
  | '&' :: '#' :: '3' :: '9' :: ';' :: rest => '\'' :: decodeHtml rest
  | c :: rest => c :: decodeHtml rest

/-- extract_text (src/process/chapter.rs 158-169): select the body, walk
it, decode entities; errors (no body) become none.  The final
`unescaped.parse()` into String is the identity. -/
def extractText (doc : Node) : Option Str :=
  (selectFirstN "body".toList doc).map (fun b => decodeHtml (extractTextFromNode none [] b))

/-- extract_text_from_selector (src/process/chapter.rs 222-228). -/
def extractTextFromSelector (doc : Node) (tag : Str) : Option Str :=
  (selectFirstN tag doc).map (fun n => trim (textContentsN n))

/-- The priority loop of extract_title (src/process/chapter.rs 205-220). -/
def extractTitleGo (doc : Node) : List Str → Str
  | [] => []
  | t :: ts =>
    match extractTextFromSelector doc t with
    | some tt => if trim tt = [] then extractTitleGo doc ts else trim tt
    | none => extractTitleGo doc ts

/-- extract_title (src/process/chapter.rs 205-220). -/
def extractTitle (doc : Node) : Str := extractTitleGo doc titleTags

/-- Whitespace run length at the front (the maximal span the regex
whitespace class can take at the anchor). -/
def wsPrefixLen (l : Str) : Nat := (l.takeWhile Char.isWhitespace).length

/-- Greedy backtracking search of the anchored pattern: the largest k ≤
bound such that title matches at offset k (offsets below wsPrefixLen are
whitespace). -/
def searchK (text title : Str) : Nat → Option Nat
  | 0 => if leadsWith title text then some 0 else none
  | k + 1 =>
    if leadsWith title (text.drop (k + 1)) then some (k + 1)
    else searchK text title k

/-- remove_original_title (src/process/chapter.rs 230-234): the regex
removes, at the start only, optional whitespace, the literal title, and
following whitespace; the subsequent trim_start subsumes the trailing
whitespace of the match, so the result is trimStart of the text after the
title at the greedy match offset k, or trimStart of the unchanged text
when there is no match. -/
def removeOriginalTitle (text title : Str) : Str :=
  match searchK text title (wsPrefixLen text) with
  | some k => trimStart (text.drop (k + title.length))
  | none => trimStart text

/-- The per-chapter pipeline of Chapter::create (src/process/chapter.rs
27-38): extract_title, extract_text, remove_original_title. -/
def chapterOf (doc : Node) : Option (Str × Str) :=
  (extractText doc).map (fun c => (extractTitle doc, removeOriginalTitle c (extractTitle doc)))

/-- What the claim calls "the last title-tag encountered in the stream":
the trimmed text of the last pre-order element whose name is a title tag
(stated from the spec, for comparison with extract_title). -/
def specLastTitleText (doc : Node) : Option Str :=
  (((elemsN doc).filter (fun n => nodeName n ∈ titleTags)).getLast?).map
    (fun n => trim (textContentsN n))

/-! ## Concrete inputs used by the claims -/

/-- The manifest events of a single cover item with an image media type. -/
def evsManifestCover : List XmlRes :=
  [.ok (.startEl "manifest".toList []),
   .ok (.startEl "item".toList
     [("id".toList, "cover-img".toList), ("href".toList, "c.jpg".toList),
      ("media-type".toList, "image/jpeg".toList)]),
   .ok (.endEl "item".toList),
   .ok (.endEl "manifest".toList)]

/-- Spine events with one nav idref and one ordinary idref. -/
def evsSpineNav : List XmlRes :=
  [.ok (.startEl "spine".toList []),
   .ok (.startEl "itemref".toList [("idref".toList, "nav1".toList)]),
   .ok (.startEl "itemref".toList [("idref".toList, "ch1".toList)]),
   .ok (.endEl "spine".toList)]

/-- Container events with two rootfile elements inside rootfiles, both
carrying full-path. -/
def evsTwoRootfiles : List XmlRes :=
  [.ok (.startEl "rootfiles".toList []),
   .ok (.startEl "rootfile".toList [("full-path".toList, "a.opf".toList)]),
   .ok (.startEl "rootfile".toList [("full-path".toList, "b.opf".toList)]),
   .ok (.endEl "rootfiles".toList)]

/-- Container events where a later rootfile lacks the attribute. -/
def evsOverwriteNone : List XmlRes :=
  [.ok (.startEl "rootfiles".toList []),
   .ok (.startEl "rootfile".toList [("full-path".toList, "a.opf".toList)]),
   .ok (.startEl "rootfile".toList []),
   .ok (.endEl "rootfiles".toList)]

/-- Container events with no rootfile at all. -/
def evsNoRootfile : List XmlRes :=
  [.ok (.startEl "container".toList []), .ok (.endEl "container".toList)]

/-- Container events aborted by a tokenizer error. -/
def evsTok : List XmlRes :=
  [.ok (.startEl "rootfiles".toList []), .error "tok".toList]

/-- Container events with a rootfile outside any rootfiles element. -/
def evsOutsideRootfiles : List XmlRes :=
  [.ok (.startEl "rootfile".toList [("full-path".toList, "x.opf".toList)])]

/-- quick-xml events with two rootfile elements, both with full-path. -/
def qEvsTwo : List QRes :=
  [.ok (.qStart "rootfile".toList [("full-path".toList, "a.opf".toList)]),
   .ok (.qStart "rootfile".toList [("full-path".toList, "b.opf".toList)]),
   .ok .qEof]

/-- quick-xml events with a rootfile not nested in any rootfiles element. -/
def qEvsNoNesting : List QRes :=
  [.ok (.qStart "rootfile".toList [("full-path".toList, "x.opf".toList)]), .ok .qEof]

/-- quick-xml events where the first rootfile has no full-path and a later
self-closing one has it. -/
def qEvsSkipNoAttr : List QRes :=
  [.ok (.qStart "rootfile".toList []),
   .ok (.qEmpty "rootfile".toList [("full-path".toList, "y.opf".toList)]),
   .ok .qEof]

/-- quick-xml events aborted by a read error. -/
def qEvsErrL : List QRes := [.error "tok".toList]

/-- quick-xml events that reach Eof with no rootfile. -/
def qEvsEof : List QRes := [.ok .qEof]

/-- Metadata events with two creator elements, each carrying a role
attribute, inside a metadata element. -/
def evsMetaTwoCreators : List XmlRes :=
  [.ok (.startEl "metadata".toList []),
   .ok (.startEl "creator".toList [("role".toList, "aut".toList)]),
   .ok (.chars " A ".toList),
   .ok (.endEl "creator".toList),
   .ok (.startEl "creator".toList [("role".toList, "edt".toList)]),
   .ok (.chars "B".toList),
   .ok (.endEl "creator".toList),
   .ok (.endEl "metadata".toList)]

/-- The kuchiki parse of the C1 markup: html5ever wraps the fragment
h1-then-p in html(head, body). -/
def docC1 : Node :=
  el "html" [el "head" [],
    el "body" [el "h1" [tx "Title"],
      el "p" [tx "Hello ", el "em" [tx "world"], tx "."]]]

/-- A document whose body holds two h1 elements, "A" then "B". -/
def docTwoH1 : Node :=
  el "html" [el "head" [], el "body" [el "h1" [tx "A"], el "h1" [tx "B"]]]

/-- A document where an h1 precedes a title element in document order. -/
def docPriority : Node :=
  el "html" [el "head" [], el "body" [el "h1" [tx "A"], el "title" [tx "T"]]]

/-- A document with no title-tag elements at all. -/
def docNoTitles : Node :=
  el "html" [el "head" [], el "body" [el "p" [tx "x"]]]

/-! ## General string lemmas -/

theorem tailOf_refl (l : Str) : tailOf l l := ⟨[], rfl⟩

theorem tailOf_drop (l : Str) (n : Nat) : tailOf (l.drop n) l :=
  ⟨l.take n, l.take_append_drop n⟩

theorem tailOf_dropWhile (l : Str) (p : Char → Bool) : tailOf (l.dropWhile p) l :=
  ⟨l.takeWhile p, List.takeWhile_append_dropWhile p l⟩

theorem tailOf_trans {a b c : Str} (h1 : tailOf a b) (h2 : tailOf b c) : tailOf a c := by
  obtain ⟨p1, hp1⟩ := h1
  obtain ⟨p2, hp2⟩ := h2
  exact ⟨p2 ++ p1, by rw [List.append_assoc, hp1, hp2]⟩

theorem dropWhile_fix (p : Char → Bool) (l : Str) :
    (l.dropWhile p).dropWhile p = l.dropWhile p := by
  induction l with
  | nil => rfl
  | cons a t ih =>
    by_cases h : p a
    · simpa [List.dropWhile, h] using ih
    · simp [List.dropWhile, h]

theorem takeWhile_dropWhile_nil (p : Char → Bool) (l : Str) :
    (l.dropWhile p).takeWhile p = [] := by
  induction l with
  | nil => rfl
  | cons a t ih =>
    by_cases h : p a
    · simpa [List.dropWhile, h] using ih
    · simp [List.dropWhile, List.takeWhile, h]

/-! ## Claim C2: path resolution -/

/-- Claim C2 (counterexample): the claim demands that resolving
"../Images/x.jpg" against the base directory "OEBPS" yields "Images/x.jpg",
but normalize_zip_path (src/utils.rs), whose accumulated result "OEBPS"
contains no slash when the leading ".." is processed, ignores the ".."
and yields "OEBPS/Images/x.jpg". -/
theorem C2_counterexample :
    normalizeZipPath "OEBPS/content.opf".toList "../Images/x.jpg".toList
        = "OEBPS/Images/x.jpg".toList ∧
    ¬ normalizeZipPath "OEBPS/content.opf".toList "../Images/x.jpg".toList
        = "Images/x.jpg".toList := by
  constructor
  · decide
  · decide

/-- Claim C2 (amended): normalize_path / href2path processes components left
to right with `.` a no-op, `..` removing the last pushed component unless the
result is empty or already ends in an unresolved `..` marker (then `..` is
pushed as a marker), and other components appended; it resolves
"../Images/x.jpg" against base "OEBPS" to "Images/x.jpg" and "./a/b" against
the empty base to "a/b".  The second resolver, normalize_zip_path, instead
handles `..` by truncating at the last slash of the accumulated result, so a
`..` reaching a slash-free result is silently dropped (no pop, no marker) and
the same inputs resolve to "OEBPS/Images/x.jpg". -/
theorem C2_amended :
    (∀ xs ys : List Str, ∀ st : List Str,
        (xs ++ ".".toList :: ys).foldl normStep st = (xs ++ ys).foldl normStep st) ∧
    (∀ c : Str, ∀ xs : List Str, ∀ st : List Str,
        c ≠ ".".toList → c ≠ "..".toList →
        (c :: "..".toList :: xs).foldl normStep st = xs.foldl normStep st) ∧
    normalizeComponents ["..".toList] = ["..".toList] ∧
    normalizeComponents ["..".toList, "..".toList] = ["..".toList, "..".toList] ∧
    hrefToPath "OEBPS/content.opf".toList "../Images/x.jpg".toList = "Images/x.jpg".toList ∧
    hrefToPath "".toList "./a/b".toList = "a/b".toList ∧
    normalizeZipPath "OEBPS/content.opf".toList "../Images/x.jpg".toList
        = "OEBPS/Images/x.jpg".toList ∧
    normalizeZipPath "".toList "./a/b".toList = "a/b".toList := by
  refine ⟨?_, ?_, by decide, by decide, by decide, by decide, by decide, by decide⟩
  · intro xs ys st
    rw [List.foldl_append, List.foldl_append, List.foldl_cons]
    congr 1
  · intro c xs st hdot hdd
    have h1 : normStep st c = st ++ [c] := by
      simp only [normStep]
      rw [if_neg hdot, if_neg hdd]
    have hdd2 : ¬ c = ['.', '.'] := by simpa using hdd
    have h2 : normStep (st ++ [c]) "..".toList = st := by
      simp [normStep, List.getLast?_concat, List.dropLast_concat, hdd2]
    simp only [List.foldl_cons, h1, h2]

/-- Claim C2 witness. -/
theorem C2_witness :
    ("x".toList ≠ ".".toList ∧ "x".toList ≠ "..".toList) ∧
    (["x".toList, "..".toList] : List Str).foldl normStep [] = ([] : List Str).foldl normStep [] :=
  ⟨⟨by decide, by decide⟩, C2_amended.2.1 "x".toList [] [] (by decide) (by decide)⟩

/-! ## Claim C3/C4: spine resolution -/

theorem lookupKV_removeKV_of_none {m : Mp} {a : Str} (b : Str)
    (h : lookupKV m a = none) : lookupKV (removeKV m b) a = none := by
  induction m with
  | nil => rfl
  | cons e rest ih =>
    obtain ⟨k, v⟩ := e
    simp only [lookupKV] at h
    by_cases hk : k = a
    · simp [hk] at h
    · simp only [if_neg hk] at h
      simp only [removeKV]
      by_cases hb : k = b
      · simp only [if_pos hb]
        exact h
      · simp only [if_neg hb, lookupKV, if_neg hk]
        exact ih h

theorem mem_keysOf_removeKV {m : Mp} {a b : Str}
    (h : a ∈ keysOf (removeKV m b)) : a ∈ keysOf m := by
  induction m with
  | nil => exact h
  | cons e rest ih =>
    obtain ⟨k, v⟩ := e
    simp only [removeKV] at h
    by_cases hb : k = b
    · rw [if_pos hb] at h
      exact List.mem_cons_of_mem _ h
    · rw [if_neg hb] at h
      simp only [keysOf, List.map_cons, List.mem_cons] at h ⊢
      rcases h with h | h
      · exact Or.inl h
      · exact Or.inr (ih h)

theorem lookupKV_eq_none_of_not_mem {m : Mp} {a : Str}
    (h : a ∉ keysOf m) : lookupKV m a = none := by
  induction m with
  | nil => rfl
  | cons e rest ih =>
    obtain ⟨k, v⟩ := e
    simp only [keysOf, List.map_cons, List.mem_cons, not_or] at h
    have hk : ¬ k = a := fun hk => h.1 hk.symm
    simp only [lookupKV, if_neg hk]
    exact ih h.2

theorem nodup_keysOf_removeKV {m : Mp} (b : Str)
    (h : (keysOf m).Nodup) : (keysOf (removeKV m b)).Nodup := by
  induction m with
  | nil => exact h
  | cons e rest ih =>
    obtain ⟨k, v⟩ := e
    simp only [keysOf, List.map_cons, List.nodup_cons] at h
    simp only [removeKV]
    by_cases hb : k = b
    · simp only [if_pos hb]
      exact h.2
    · simp only [if_neg hb, keysOf, List.map_cons, List.nodup_cons]
      exact ⟨fun hm => h.1 (mem_keysOf_removeKV hm), ih h.2⟩

theorem lookupKV_removeKV_self {m : Mp} {a : Str}
    (h : (keysOf m).Nodup) : lookupKV (removeKV m a) a = none := by
  induction m with
  | nil => rfl
  | cons e rest ih =>
    obtain ⟨k, v⟩ := e
    simp only [keysOf, List.map_cons, List.nodup_cons] at h
    simp only [removeKV]
    by_cases ha : k = a
    · simp only [if_pos ha]
      exact lookupKV_eq_none_of_not_mem (ha ▸ h.1)
    · simp only [if_neg ha, lookupKV, if_neg ha]
      exact ih h.2

theorem intoHrefs_cons_some {m : Mp} {id h : Str} (hl : lookupKV m id = some h)
    (rest : List Str) : intoHrefs (id :: rest) m = h :: intoHrefs rest (removeKV m id) := by
  simp [intoHrefs, hl]

theorem intoHrefs_cons_none {m : Mp} {id : Str} (hl : lookupKV m id = none)
    (rest : List Str) : intoHrefs (id :: rest) m = intoHrefs rest m := by
  simp [intoHrefs, hl]

theorem intoHrefs_mid_skip {a : Str} (l2 l3 : List Str) :
    ∀ m : Mp, lookupKV m a = none →
      intoHrefs (l2 ++ a :: l3) m = intoHrefs (l2 ++ l3) m := by
  induction l2 with
  | nil =>
    intro m h
    rw [List.nil_append, List.nil_append, intoHrefs_cons_none h]
  | cons b t ih =>
    intro m h
    rw [List.cons_append, List.cons_append]
    cases hb : lookupKV m b with
    | some hv =>
      rw [intoHrefs_cons_some hb, intoHrefs_cons_some hb,
        ih _ (lookupKV_removeKV_of_none b h)]
    | none =>
      rw [intoHrefs_cons_none hb, intoHrefs_cons_none hb, ih _ h]

/-- Claim C3 (counterexample): the spine-resolution loop of parse_opf
(src/process/opf.rs 89-96) uses a non-consuming map lookup, so a spine in
which the id "a" appears twice yields the chapter path "OEBPS/a.xhtml"
twice, not once. -/
theorem C3_counterexample :
    parseOpfResolve ["a".toList, "a".toList] [("a".toList, "OEBPS/a.xhtml".toList)]
        = .ok ["OEBPS/a.xhtml".toList, "OEBPS/a.xhtml".toList] ∧
    ¬ (["OEBPS/a.xhtml".toList, "OEBPS/a.xhtml".toList] : List Str).length = 1 := by
  constructor
  · rfl
  · decide

/-- Claim C3 (amended): Spine::into_hrefs (the quick-xml pipeline) consumes
each manifest id at most once — deleting a repeated occurrence of an id from
the spine does not change the resolved list, so a duplicated id contributes
exactly one chapter path; the parse_opf resolution loop (the xml-rs
pipeline) instead resolves every occurrence, producing one path per
occurrence of a mapped id. -/
theorem C3_amended :
    (∀ (l1 l2 l3 : List Str) (a : Str) (m : Mp), (keysOf m).Nodup →
        intoHrefs (l1 ++ a :: (l2 ++ a :: l3)) m = intoHrefs (l1 ++ a :: (l2 ++ l3)) m) ∧
    parseOpfResolve ["a".toList, "a".toList] [("a".toList, "h".toList)]
        = .ok ["h".toList, "h".toList] := by
  constructor
  · intro l1 l2 l3 a m hm
    induction l1 generalizing m with
    | nil =>
      rw [List.nil_append, List.nil_append]
      cases ha : lookupKV m a with
      | some hv =>
        rw [intoHrefs_cons_some ha, intoHrefs_cons_some ha,
          intoHrefs_mid_skip l2 l3 _ (lookupKV_removeKV_self hm)]
      | none =>
        rw [intoHrefs_cons_none ha, intoHrefs_cons_none ha,
          intoHrefs_mid_skip l2 l3 m ha]
    | cons b t ih =>
      rw [List.cons_append, List.cons_append]
      cases hb : lookupKV m b with
      | some hv =>
        rw [intoHrefs_cons_some hb, intoHrefs_cons_some hb,
          ih _ (nodup_keysOf_removeKV b hm)]
      | none =>
        rw [intoHrefs_cons_none hb, intoHrefs_cons_none hb, ih _ hm]
  · rfl

/-- Claim C3 witness. -/
theorem C3_witness :
    (keysOf [("x".toList, "x.xhtml".toList)]).Nodup ∧
    intoHrefs (["x".toList] ++ "x".toList :: ([] ++ "x".toList :: []))
        [("x".toList, "x.xhtml".toList)]
      = intoHrefs (["x".toList] ++ "x".toList :: ([] ++ [])) [("x".toList, "x.xhtml".toList)] :=
  ⟨by decide, C3_amended.1 ["x".toList] [] [] "x".toList [("x".toList, "x.xhtml".toList)]
    (by decide)⟩

theorem parseOpfResolve_cons_some {m : Mp} {id h : Str} (hl : lookupKV m id = some h)
    (rest : List Str) :
    parseOpfResolve (id :: rest) m = (parseOpfResolve rest m).map (fun l => h :: l) := by
  simp [parseOpfResolve, hl]

theorem parseOpfResolve_cons_none {m : Mp} {id : Str} (hl : lookupKV m id = none)
    (rest : List Str) :
    parseOpfResolve (id :: rest) m = .error ("Missing href for chapter id: ".toList ++ id) := by
  simp [parseOpfResolve, hl]

/-- Claim C4 (counterexample): in the quick-xml pipeline, a spine id
("ghost") with no entry in the filtered manifest map is not an error:
Spine::into_hrefs silently skips it and still produces the chapter-path
list of the remaining ids. -/
theorem C4_counterexample :
    lookupKV (intoMap [⟨"ch1".toList, "ch1.xhtml".toList, "application/xhtml+xml".toList⟩])
        "ghost".toList = none ∧
    intoHrefs ["ghost".toList, "ch1".toList]
        (intoMap [⟨"ch1".toList, "ch1.xhtml".toList, "application/xhtml+xml".toList⟩])
      = ["ch1.xhtml".toList] := by
  constructor
  · rfl
  · rfl

/-- Claim C4 (amended): in parse_opf (xml-rs pipeline) a spine id with no
entry in its (unfiltered) id-to-href map is a hard error whose message names
that id, and no chapter-path list is produced; in the quick-xml pipeline,
Spine::into_hrefs silently skips such an id and the remaining chapter paths
are still produced. -/
theorem C4_amended :
    (∀ (l1 l2 : List Str) (a : Str) (m : Mp),
        (∀ j ∈ l1, (lookupKV m j).isSome = true) → lookupKV m a = none →
        parseOpfResolve (l1 ++ a :: l2) m
          = .error ("Missing href for chapter id: ".toList ++ a)) ∧
    (∀ (a : Str) (rest : List Str) (m : Mp), lookupKV m a = none →
        intoHrefs (a :: rest) m = intoHrefs rest m) ∧
    intoHrefs ["ghost".toList, "ch1".toList]
        (intoMap [⟨"ch1".toList, "ch1.xhtml".toList, "application/xhtml+xml".toList⟩])
      = ["ch1.xhtml".toList] := by
  refine ⟨?_, fun a rest m h => intoHrefs_cons_none h rest, rfl⟩
  intro l1 l2 a m
  induction l1 with
  | nil =>
    intro _ ha
    rw [List.nil_append, parseOpfResolve_cons_none ha]
  | cons j t ih =>
    intro hall ha
    obtain ⟨hv, hjv⟩ := Option.isSome_iff_exists.mp (hall j (List.mem_cons_self j t))
    rw [List.cons_append, parseOpfResolve_cons_some hjv,
      ih (fun x hx => hall x (List.mem_cons_of_mem j hx)) ha]
    rfl

/-- Claim C4 witness. -/
theorem C4_witness :
    (∀ j ∈ ["ch1".toList], (lookupKV [("ch1".toList, "h".toList)] j).isSome = true) ∧
    lookupKV [("ch1".toList, "h".toList)] "ghost".toList = none ∧
    parseOpfResolve (["ch1".toList] ++ "ghost".toList :: []) [("ch1".toList, "h".toList)]
      = .error ("Missing href for chapter id: ".toList ++ "ghost".toList) :=
  ⟨by decide, by decide,
    C4_amended.1 ["ch1".toList] [] "ghost".toList [("ch1".toList, "h".toList)]
      (by decide) (by decide)⟩

/-! ## Claim C5/C6: manifest and spine filtering -/

theorem lookupKV_insertKV (m : Mp) (k v k' : Str) :
    lookupKV (insertKV m k v) k' = if k = k' then some v else lookupKV m k' := by
  induction m with
  | nil => simp [insertKV, lookupKV]
  | cons e rest ih =>
    obtain ⟨a, b⟩ := e
    by_cases hak : a = k
    · subst hak
      simp only [insertKV, if_pos rfl]
      by_cases hk' : a = k' <;> simp [lookupKV, hk']
    · simp only [insertKV, if_neg hak]
      by_cases ha' : a = k'
      · have hkk : ¬ k = k' := fun h => hak (by rw [ha', h])
        simp [lookupKV, ha', hkk]
      · simp [lookupKV, ha', ih]

theorem mem_keysOf_insertKV (m : Mp) (k v a : Str) :
    a ∈ keysOf (insertKV m k v) ↔ a ∈ keysOf m ∨ a = k := by
  induction m with
  | nil => simp [insertKV, keysOf]
  | cons e rest ih =>
    obtain ⟨x, y⟩ := e
    by_cases hxk : x = k
    · subst hxk
      rw [show insertKV ((x, y) :: rest) x v = (x, v) :: rest from by simp [insertKV]]
      simp only [keysOf, List.map_cons, List.mem_cons]
      constructor
      · rintro (h | h)
        · exact Or.inr h
        · exact Or.inl (Or.inr h)
      · rintro ((h | h) | h)
        · exact Or.inl h
        · exact Or.inr h
        · exact Or.inl h
    · simp only [insertKV, if_neg hxk, keysOf, List.map_cons, List.mem_cons]
      rw [show (List.map Prod.fst (insertKV rest k v) : List Str)
            = keysOf (insertKV rest k v) from rfl, ih]
      simp [keysOf, or_assoc]

theorem nodup_keysOf_insertKV {m : Mp} (k v : Str) (h : (keysOf m).Nodup) :
    (keysOf (insertKV m k v)).Nodup := by
  induction m with
  | nil => simp [insertKV, keysOf]
  | cons e rest ih =>
    obtain ⟨x, y⟩ := e
    simp only [keysOf, List.map_cons, List.nodup_cons] at h
    by_cases hxk : x = k
    · subst hxk
      rw [show insertKV ((x, y) :: rest) x v = (x, v) :: rest from by simp [insertKV]]
      simp only [keysOf, List.map_cons, List.nodup_cons]
      exact h
    · simp only [insertKV, if_neg hxk, keysOf, List.map_cons, List.nodup_cons]
      refine ⟨fun hm => ?_, ih h.2⟩
      rcases (mem_keysOf_insertKV rest k v x).mp hm with hm' | hm'
      · exact h.1 hm'
      · exact hxk hm'

theorem nodup_keysOf_foldl_insert (ps : List MItem) :
    ∀ m0 : Mp, (keysOf m0).Nodup →
      (keysOf (ps.foldl (fun m it => insertKV m it.id it.href) m0)).Nodup := by
  induction ps with
  | nil => intro m0 h; exact h
  | cons p t ih =>
    intro m0 h
    rw [List.foldl_cons]
    exact ih _ (nodup_keysOf_insertKV p.id p.href h)

theorem nodup_keysOf_intoMap (items : List MItem) : (keysOf (intoMap items)).Nodup :=
  nodup_keysOf_foldl_insert _ [] List.nodup_nil

theorem lookupKV_foldl_insert_isSome (ps : List MItem) :
    ∀ (m0 : Mp) (k : Str),
      (lookupKV (ps.foldl (fun m it => insertKV m it.id it.href) m0) k).isSome = true
        ↔ (lookupKV m0 k).isSome = true ∨ ∃ it ∈ ps, it.id = k := by
  induction ps with
  | nil => intro m0 k; simp
  | cons p t ih =>
    intro m0 k
    rw [List.foldl_cons, ih]
    constructor
    · rintro (h | h)
      · rw [lookupKV_insertKV] at h
        by_cases hpk : p.id = k
        · exact Or.inr ⟨p, List.mem_cons_self p t, hpk⟩
        · rw [if_neg hpk] at h
          exact Or.inl h
      · obtain ⟨it, hm, hik⟩ := h
        exact Or.inr ⟨it, List.mem_cons_of_mem p hm, hik⟩
    · rintro (h | ⟨it, hm, hik⟩)
      · left
        rw [lookupKV_insertKV]
        by_cases hpk : p.id = k
        · rw [if_pos hpk]; rfl
        · rw [if_neg hpk]; exact h
      · rcases List.mem_cons.mp hm with rfl | hm'
        · left
          rw [lookupKV_insertKV, if_pos hik]
          rfl
        · exact Or.inr ⟨it, hm', hik⟩

theorem manifestKeep_iff (it : MItem) :
    manifestKeep it = true
      ↔ withinOf "cover".toList it.id = false
          ∧ it.mediaType = "application/xhtml+xml".toList := by
  unfold manifestKeep
  split_ifs with h1 h2 <;> simp_all

theorem lookupKV_intoMap_isSome (items : List MItem) (k : Str) :
    (lookupKV (intoMap items) k).isSome = true
      ↔ ∃ it ∈ items, it.id = k ∧ withinOf "cover".toList it.id = false
          ∧ it.mediaType = "application/xhtml+xml".toList := by
  unfold intoMap
  rw [lookupKV_foldl_insert_isSome]
  have h0 : (lookupKV ([] : Mp) k).isSome = false := rfl
  rw [h0]
  simp only [Bool.false_eq_true, false_or]
  constructor
  · rintro ⟨it, hm, hik⟩
    rw [List.mem_filter] at hm
    obtain ⟨hmem, hkeep⟩ := hm
    rw [manifestKeep_iff] at hkeep
    exact ⟨it, hmem, hik, hkeep.1, hkeep.2⟩
  · rintro ⟨it, hm, hik, hc, hmt⟩
    exact ⟨it, List.mem_filter.mpr ⟨hm, (manifestKeep_iff it).mpr ⟨hc, hmt⟩⟩, hik⟩

/-- Claim C5 (counterexample): parse_manifest (src/process/opf.rs 173-201)
does no filtering at all — an item whose id contains "cover" and whose
media-type is image/jpeg is retained, and survives into the collected
id-to-href map used by parse_opf. -/
theorem C5_counterexample :
    parseManifest evsManifestCover = .ok [("cover-img".toList, "c.jpg".toList)] ∧
    withinOf "cover".toList "cover-img".toList = true ∧
    ¬ ("image/jpeg".toList : Str) = "application/xhtml+xml".toList ∧
    lookupKV (collectMp [("cover-img".toList, "c.jpg".toList)]) "cover-img".toList
      = some "c.jpg".toList := by
  refine ⟨rfl, by decide, by decide, rfl⟩

/-- Claim C5 (amended): Manifest::into_map (quick-xml pipeline) retains
exactly the items whose media-type is XHTML and whose id does not contain
"cover", with unique surviving keys; parse_manifest (xml-rs pipeline)
performs no such filtering and retains every item carrying id and href
attributes, cover or not, XHTML or not. -/
theorem C5_amended :
    (∀ (items : List MItem) (k : Str),
        (lookupKV (intoMap items) k).isSome = true
          ↔ ∃ it ∈ items, it.id = k ∧ withinOf "cover".toList it.id = false
              ∧ it.mediaType = "application/xhtml+xml".toList) ∧
    (∀ items : List MItem, (keysOf (intoMap items)).Nodup) ∧
    parseManifest evsManifestCover = .ok [("cover-img".toList, "c.jpg".toList)] := by
  refine ⟨lookupKV_intoMap_isSome, fun items => nodup_keysOf_intoMap items, rfl⟩

theorem parseSpineGo_mem {evs : List XmlRes} :
    ∀ {inS : Bool} {l : List Str}, parseSpineGo inS evs = .ok l →
      ∀ id ∈ l, withinOf "nav".toList id = false ∧ withinOf "cover".toList id = false := by
  induction evs with
  | nil =>
    intro inS l h id hid
    simp only [parseSpineGo] at h
    injection h with h
    subst h
    cases hid
  | cons r rest ih =>
    intro inS l h id hid
    cases r with
    | error e => simp [parseSpineGo] at h
    | ok ev =>
      cases ev with
      | startEl n attrs =>
        simp only [parseSpineGo] at h
        by_cases h1 : n = "spine".toList
        · rw [if_pos h1] at h
          exact ih h id hid
        · rw [if_neg h1] at h
          by_cases h2 : inS = true
          · rw [if_pos h2] at h
            by_cases h3 : n = "itemref".toList
            · rw [if_pos h3] at h
              cases hfa : findAttr attrs "idref".toList with
              | none =>
                simp only [hfa] at h
                exact ih h id hid
              | some idref =>
                simp only [hfa] at h
                by_cases h4 : withinOf "nav".toList idref = true
                · rw [if_pos h4] at h
                  exact ih h id hid
                · rw [if_neg h4] at h
                  by_cases h5 : withinOf "cover".toList idref = true
                  · rw [if_pos h5] at h
                    exact ih h id hid
                  · rw [if_neg h5] at h
                    cases hin : parseSpineGo inS rest with
                    | error e =>
                      rw [hin] at h
                      simp [Except.map] at h
                    | ok l' =>
                      rw [hin] at h
                      simp only [Except.map] at h
                      injection h with h
                      rw [← h] at hid
                      rcases List.mem_cons.mp hid with rfl | hmem
                      · simp only [Bool.not_eq_true] at h4 h5
                        exact ⟨h4, h5⟩
                      · exact ih hin id hmem
            · rw [if_neg h3] at h
              exact ih h id hid
          · rw [if_neg h2] at h
            exact ih h id hid
      | endEl n =>
        simp only [parseSpineGo] at h
        by_cases h1 : n = "spine".toList
        · rw [if_pos h1] at h
          exact ih h id hid
        · rw [if_neg h1] at h
          exact ih h id hid
      | chars s =>
        simp only [parseSpineGo] at h
        exact ih h id hid
      | otherEv =>
        simp only [parseSpineGo] at h
        exact ih h id hid

/-- Claim C6 (counterexample): in the quick-xml pipeline the spine is never
filtered — a spine idref containing "nav", whose manifest item is XHTML and
whose id does not contain "cover", resolves to a chapter path. -/
theorem C6_counterexample :
    intoHrefs ["nav".toList]
        (intoMap [⟨"nav".toList, "nav.xhtml".toList, "application/xhtml+xml".toList⟩])
      = ["nav.xhtml".toList] ∧
    withinOf "nav".toList "nav".toList = true ∧
    ¬ (["nav.xhtml".toList] : List Str) = [] := by
  refine ⟨rfl, by decide, by decide⟩

/-- Claim C6 (amended): parse_spine (xml-rs pipeline) drops every idref
containing "nav" or "cover", so those ids never reach resolution there; the
quick-xml pipeline does not filter the spine — ids containing "cover" still
never contribute a chapter because Manifest::into_map excludes them from the
manifest map, but an id containing "nav" whose manifest item is XHTML does
contribute a chapter. -/
theorem C6_amended :
    (∀ (evs : List XmlRes) (l : List Str), parseSpine evs = .ok l →
        ∀ id ∈ l, withinOf "nav".toList id = false ∧ withinOf "cover".toList id = false) ∧
    (∀ (items : List MItem) (id : Str) (rest : List Str),
        withinOf "cover".toList id = true →
        intoHrefs (id :: rest) (intoMap items) = intoHrefs rest (intoMap items)) ∧
    intoHrefs ["nav".toList]
        (intoMap [⟨"nav".toList, "nav.xhtml".toList, "application/xhtml+xml".toList⟩])
      = ["nav.xhtml".toList] := by
  refine ⟨fun evs l h => parseSpineGo_mem h, ?_, rfl⟩
  intro items id rest hcover
  have hnone : lookupKV (intoMap items) id = none := by
    cases hlk : lookupKV (intoMap items) id with
    | none => rfl
    | some v =>
      exfalso
      have hs : (lookupKV (intoMap items) id).isSome = true := by rw [hlk]; rfl
      obtain ⟨it, hmem, hid, hc, hm⟩ := (lookupKV_intoMap_isSome items id).mp hs
      rw [hid, hcover] at hc
      exact Bool.noConfusion hc
  exact intoHrefs_cons_none hnone rest

/-- Claim C6 witness. -/
theorem C6_witness :
    parseSpine evsSpineNav = .ok ["ch1".toList] ∧
    (withinOf "nav".toList "ch1".toList = false ∧ withinOf "cover".toList "ch1".toList = false) ∧
    withinOf "cover".toList "cover1".toList = true ∧
    intoHrefs ("cover1".toList :: []) (intoMap []) = intoHrefs [] (intoMap []) :=
  ⟨rfl, C6_amended.1 evsSpineNav ["ch1".toList] rfl "ch1".toList (by decide),
   by decide, C6_amended.2.1 [] "cover1".toList [] (by decide)⟩

/-! ## Claim C7: package location -/

/-- Claim C7 (counterexample): get_opf_path (src/process/opf.rs 262-297)
returns the full-path of the LAST rootfile inside rootfiles, not the first
("b.opf", not "a.opf"); and extract_opf_path (src/process.rs 141-164)
accepts a rootfile with no enclosing rootfiles element at all. -/
theorem C7_counterexample :
    getOpfPath evsTwoRootfiles = .ok "b.opf".toList ∧
    ¬ ("b.opf".toList : Str) = "a.opf".toList ∧
    extractOpfPath qEvsNoNesting = .ok "x.opf".toList := by
  refine ⟨rfl, by decide, rfl⟩

/-- Claim C7 (amended): both locators read META-INF/container.xml, but
differ from the claim in which rootfile wins.  get_opf_path (xml-rs) tracks
nesting inside rootfiles and lets every such rootfile overwrite the stored
full-path value — the last one wins, a later attribute-less rootfile clears
the value, absence at end of stream is the descriptor-not-found error, a
tokenizer error aborts with a malformed-XML error, and a rootfile outside
rootfiles is ignored.  extract_opf_path (quick-xml) returns the first
rootfile (Start or Empty) that carries full-path, skipping attribute-less
ones, with no nesting check; Eof yields the not-found error and a read
error aborts. -/
theorem C7_amended :
    getOpfPath evsTwoRootfiles = .ok "b.opf".toList ∧
    getOpfPath evsOverwriteNone = .error "No OPF path found in container.xml".toList ∧
    getOpfPath evsNoRootfile = .error "No OPF path found in container.xml".toList ∧
    getOpfPath evsTok = .error ("XML parsing error: ".toList ++ "tok".toList) ∧
    getOpfPath evsOutsideRootfiles = .error "No OPF path found in container.xml".toList ∧
    extractOpfPath qEvsTwo = .ok "a.opf".toList ∧
    extractOpfPath qEvsNoNesting = .ok "x.opf".toList ∧
    extractOpfPath qEvsSkipNoAttr = .ok "y.opf".toList ∧
    extractOpfPath qEvsErrL = .error ("Error reading XML: ".toList ++ "tok".toList) ∧
    extractOpfPath qEvsEof = .error "OPF path not found in container.xml".toList := by
  refine ⟨rfl, rfl, rfl, rfl, rfl, rfl, rfl, rfl, rfl, rfl⟩

/-! ## Claim C10: metadata creators -/

/-- Claim C10: in parse_metadata (src/process/opf.rs 101-170) the result is
one optional author string; each creator end-tag overwrites it with the
trimmed accumulated text of that creator, so with several creators only the
last survives; and the parser never reads attributes, so the role attribute
is neither read nor stored (the Metadata record has no field for it). -/
theorem C10_ok :
    (∀ (evs : List XmlRes) (st : MetaSt),
        parseMetadataGo st evs = parseMetadataGo st (evs.map stripAttrsRes)) ∧
    (∀ (st : MetaSt) (t : Str) (attrs : List (Str × Str)), st.inMeta = true →
        (metaStep (metaStep (metaStep st (.startEl "creator".toList attrs))
          (.chars t)) (.endEl "creator".toList)).md.author = some (trim t)) ∧
    parseMetadata evsMetaTwoCreators
      = .ok ⟨[], some "B".toList, none, none, []⟩ := by
  refine ⟨?_, ?_, rfl⟩
  · intro evs
    induction evs with
    | nil => intro st; rfl
    | cons r rest ih =>
      intro st
      cases r with
      | error e => rfl
      | ok ev =>
        have hstep : metaStep st (stripAttrsEv ev) = metaStep st ev := by
          cases ev <;> rfl
        calc parseMetadataGo st (.ok ev :: rest)
            = parseMetadataGo (metaStep st ev) rest := rfl
          _ = parseMetadataGo (metaStep st ev) (rest.map stripAttrsRes) := ih _
          _ = parseMetadataGo st ((.ok ev :: rest).map stripAttrsRes) := by
              simp only [List.map_cons, stripAttrsRes, parseMetadataGo, hstep]
  · intro st t attrs hst
    simp [metaStep, metaRecognized, hst]

/-- Claim C10 witness. -/
theorem C10_witness :
    ((⟨true, [], [], ⟨[], none, none, none, []⟩, []⟩ : MetaSt).inMeta = true) ∧
    (metaStep (metaStep (metaStep (⟨true, [], [], ⟨[], none, none, none, []⟩, []⟩ : MetaSt)
        (.startEl "creator".toList [("role".toList, "edt".toList)])) (.chars "B".toList))
        (.endEl "creator".toList)).md.author = some (trim "B".toList) :=
  ⟨rfl, C10_ok.2.1 ⟨true, [], [], ⟨[], none, none, none, []⟩, []⟩ "B".toList
    [("role".toList, "edt".toList)] rfl⟩

/-! ## Claim C1: chapter extraction round trip -/

/-- Claim C1 (counterexample): on the cited markup the Chapter pipeline
(extract_title, extract_text, remove_original_title) does not produce the
content "Hello world.\n": extract_text_from_node inserts the newline
BEFORE each text-tag element, not after a block closes, and
remove_original_title strips the leading title line together with the
surrounding whitespace, leaving no trailing newline. -/
theorem C1_counterexample :
    ¬ chapterOf docC1 = some ("Title".toList, "Hello world.\n".toList) := by
  decide

/-- Claim C1 (amended): on the markup h1 "Title" followed by p with inline
em, the pipeline yields title "Title" and content "Hello world." —
extract_text produces "\nTitle\nHello world." (a newline before each of the
text tags h1 and p, inline text concatenated on the same line, no trailing
newline), and remove_original_title removes the leading whitespace, the
title and the following whitespace. -/
theorem C1_amended :
    chapterOf docC1 = some ("Title".toList, "Hello world.".toList) ∧
    extractText docC1 = some "\nTitle\nHello world.".toList ∧
    extractTitle docC1 = "Title".toList := by
  refine ⟨by decide, by decide, by decide⟩

/-! ## Claim C8: title selection -/

theorem extractTitleGo_spec (doc : Node) : ∀ tags : List Str,
    extractTitleGo doc tags = [] ∨
      ∃ t ∈ tags, ∃ s, extractTextFromSelector doc t = some s ∧
        extractTitleGo doc tags = trim s ∧ ¬ trim s = [] := by
  intro tags
  induction tags with
  | nil => exact Or.inl rfl
  | cons t ts ih =>
    cases hsel : extractTextFromSelector doc t with
    | none =>
      rw [show extractTitleGo doc (t :: ts) = extractTitleGo doc ts from by
        simp [extractTitleGo, hsel]]
      rcases ih with h | ⟨t', ht', s, hs, heq, hne⟩
      · exact Or.inl h
      · exact Or.inr ⟨t', List.mem_cons_of_mem t ht', s, hs, heq, hne⟩
    | some s =>
      by_cases hts : trim s = []
      · rw [show extractTitleGo doc (t :: ts) = extractTitleGo doc ts from by
          simp [extractTitleGo, hsel, hts]]
        rcases ih with h | ⟨t', ht', s', hs', heq, hne⟩
        · exact Or.inl h
        · exact Or.inr ⟨t', List.mem_cons_of_mem t ht', s', hs', heq, hne⟩
      · rw [show extractTitleGo doc (t :: ts) = trim s from by
          simp [extractTitleGo, hsel, hts]]
        exact Or.inr ⟨t, List.mem_cons_self t ts, s, hsel, rfl, hts⟩

/-- Claim C8 (counterexample): with two h1 elements ("A" then "B"), the last
title-tag in the stream has text "B", but extract_title
(src/process/chapter.rs 205-220) returns "A" — the FIRST element matched by
the highest-priority selector, not the last encountered. -/
theorem C8_counterexample :
    specLastTitleText docTwoH1 = some "B".toList ∧
    extractTitle docTwoH1 = "A".toList ∧
    ¬ ("A".toList : Str) = "B".toList := by
  refine ⟨by decide, by decide, by decide⟩

/-- Claim C8 (amended): extract_title tries the selectors title, h1, …, h6
in that priority order; the result is the trimmed text of the first matched
element for the first selector yielding non-blank text (so a title element
beats an earlier h1, and of two h1 elements the first wins), and the empty
string when no selector yields non-blank text. -/
theorem C8_amended :
    (∀ doc : Node, extractTitle doc = [] ∨
        ∃ t ∈ titleTags, ∃ s, extractTextFromSelector doc t = some s ∧
          extractTitle doc = trim s ∧ ¬ trim s = []) ∧
    extractTitle docTwoH1 = "A".toList ∧
    extractTitle docPriority = "T".toList ∧
    extractTitle docNoTitles = [] := by
  refine ⟨fun doc => extractTitleGo_spec doc titleTags, by decide, by decide, by decide⟩

/-! ## Claim C9: title stripping -/

/-- Claim C9 (counterexample): remove_original_title is not idempotent —
when the remaining content itself begins with the title again, a second
application strips a second occurrence:
on ("Title Title x", "Title") the first application yields "Title x" and the
second yields "x". -/
theorem C9_counterexample :
    removeOriginalTitle "Title Title x".toList "Title".toList = "Title x".toList ∧
    ¬ removeOriginalTitle (removeOriginalTitle "Title Title x".toList "Title".toList)
        "Title".toList
      = removeOriginalTitle "Title Title x".toList "Title".toList := by
  constructor
  · decide
  · decide

/-- Claim C9 (amended): each application of remove_original_title removes
material only from the front (its result is always a contiguous tail of the
input, so an occurrence of the title elsewhere in the body is never
touched), the result carries no leading whitespace, and a second
application is the identity PROVIDED the first result does not itself begin
with the title; on the example of the spec ("Title\nBody text", "Title") it
yields "Body text" and is idempotent there. -/
theorem C9_amended :
    (∀ text title : Str, tailOf (removeOriginalTitle text title) text) ∧
    (∀ text title : Str,
        trimStart (removeOriginalTitle text title) = removeOriginalTitle text title) ∧
    (∀ text title : Str, leadsWith title (removeOriginalTitle text title) = false →
        removeOriginalTitle (removeOriginalTitle text title) title
          = removeOriginalTitle text title) ∧
    removeOriginalTitle "Title\nBody text".toList "Title".toList = "Body text".toList ∧
    removeOriginalTitle "Body text".toList "Title".toList = "Body text".toList := by
  refine ⟨?_, ?_, ?_, by decide, by decide⟩
  · intro text title
    unfold removeOriginalTitle
    cases searchK text title (wsPrefixLen text) with
    | some k => exact tailOf_trans (tailOf_dropWhile _ _) (tailOf_drop text _)
    | none => exact tailOf_dropWhile _ _
  · intro text title
    unfold removeOriginalTitle
    cases searchK text title (wsPrefixLen text) with
    | some k => exact dropWhile_fix _ _
    | none => exact dropWhile_fix _ _
  · intro text title hlw
    have hform : ∃ X, removeOriginalTitle text title = trimStart X := by
      unfold removeOriginalTitle
      cases searchK text title (wsPrefixLen text) with
      | some k => exact ⟨_, rfl⟩
      | none => exact ⟨_, rfl⟩
    obtain ⟨X, hX⟩ := hform
    rw [hX] at hlw ⊢
    have hws : wsPrefixLen (trimStart X) = 0 := by
      have h0 := takeWhile_dropWhile_nil Char.isWhitespace X
      simp [wsPrefixLen, trimStart, h0]
    unfold removeOriginalTitle
    rw [hws]
    simp only [searchK, hlw]
    exact dropWhile_fix _ _

/-- Claim C9 witness. -/
theorem C9_witness :
    leadsWith "Title".toList (removeOriginalTitle "Body text".toList "Title".toList) = false ∧
    removeOriginalTitle (removeOriginalTitle "Body text".toList "Title".toList) "Title".toList
      = removeOriginalTitle "Body text".toList "Title".toList :=
  ⟨by decide, C9_amended.2.2.1 "Body text".toList "Title".toList (by decide)⟩
